import Mathlib

/-!
# ICMP ping: checksum, echo header and ping loop

A shallow embedding of `src/ping.c` (the file `src/icmp.c` carries the same
`checksum`, byte for byte).

Conventions of the embedding.

* A `short` in memory is represented by its 16-bit pattern, a natural number
  below `65536`; reading it through a `short *` yields the signed value
  (`asShort`).  The host is little-endian, as on the x86 machines the program
  is written for.
* `unsigned int` is 32 bits wide and wraps modulo `2^32`; `unsigned short` is
  16 bits wide.
* The `int` variables of the loop (`counter`, `transmitted`, `received`) are
  integers without a bound.  `counter` grows by one per iteration and bounds
  the other two, so no signed overflow (undefined in C) occurs in a run of
  fewer than `INT_MAX` iterations; the summary carries the final `counter`.
* `float` and `double` arithmetic is taken over the rationals, exactly.
  `sqrt` is not evaluated: the summary keeps its argument.
-/

namespace Ping

/-! ## `checksum` (src/ping.c lines 72-92, src/icmp.c lines 36-56) -/

/-- Signed value of a 16-bit pattern read through a `short *`. -/
def asShort (w : Nat) : Int :=
  if w % 65536 < 32768 then ((w % 65536 : Nat) : Int) else ((w % 65536 : Nat) : Int) - 65536

/-- One execution of `sum += *data` where `sum` is an `unsigned int` and `*data`
a `short`: the short is promoted to `int`, converted to `unsigned int` and
added modulo `2^32`. -/
def addShort (sum w : Nat) : Nat :=
  (((sum : Int) + asShort w) % 4294967296).toNat

/-- The loop `for(sum=0; bytes>1; bytes-=2) sum += *data++;`.  The list is the
array of shorts `data` points to; reading past its end is undefined behaviour
and gives `none`. -/
def sumLoop : List Nat → Nat → Nat → Option Nat
  | [], bytes, sum => if bytes > 1 then none else some sum
  | w :: rest, bytes, sum =>
    if bytes > 1 then sumLoop rest (bytes - 2) (addShort sum w) else some sum

/-- The two folding statements `sum = (sum >> 16) + (sum & 0xFFFF); sum += (sum >> 16);`
on an `unsigned int` (`>> 16` is division by `65536`, `& 0xFFFF` the remainder). -/
def foldSum (sum : Nat) : Nat :=
  let sum1 := (sum / 65536 + sum % 65536) % 4294967296
  (sum1 + sum1 / 65536) % 4294967296

/-- The statement `result = ~sum;` with `result` an `unsigned short`. -/
def complement16 (sum : Nat) : Nat :=
  (4294967295 - sum % 4294967296) % 65536

/-- The function `unsigned short checksum(short *data, size_t bytes)`.  For an odd
`bytes` the code prints a message and returns `-1`, which as `unsigned short`
is `65535`. -/
def checksum (data : List Nat) (bytes : Nat) : Option Nat :=
  if bytes % 2 = 1 then some 65535
  else (sumLoop data bytes 0).map (fun sum => complement16 (foldSum sum))

/-! ## RFC 1071, following the words of the specification -/

/-- End-around-carry addition of two 16-bit words. -/
def onesAdd (a b : Nat) : Nat :=
  if a + b > 65535 then a + b - 65535 else a + b

/-- One's-complement sum of a list of unsigned 16-bit words. -/
def onesSum (words : List Nat) : Nat :=
  words.foldl onesAdd 0

/-- RFC 1071 Internet checksum: the 16-bit complement of the one's-complement sum
of the words, each taken as an unsigned value. -/
def rfc1071 (words : List Nat) : Nat :=
  65535 - onesSum words

/-! ## The echo header (src/ping.c lines 166-179) -/

/-- The fields of `struct icmphdr` used by the program. -/
structure icmphdr where
  type : Nat
  code : Nat
  checksum : Nat
  id : Nat
  sequence : Nat
deriving DecidableEq, Repr

/-- The library function `htons` on a little-endian host: the argument is converted to
`uint16_t` and its two bytes are swapped. -/
def htons (x : Int) : Nat :=
  let v := (x % 65536).toNat
  (v % 256) * 256 + v / 256

/-- The shorts seen through the cast `(short *)&hdr` on a little-endian host:
`type` is the low byte of the first short and `code` its high byte. -/
def asWords (hdr : icmphdr) : List Nat :=
  [hdr.type + 256 * hdr.code, hdr.checksum, hdr.id, hdr.sequence]

/-- The constant `ICMP_ECHO`. -/
def ICMP_ECHO : Nat := 8

/-- The constant `ID`. -/
def ID : Int := 5446

/-- The header built in the iteration whose counter is `counter`: the structure is
zeroed, the fields are set, the checksum field is set to `0` and then to
`checksum((short *)&hdr, sizeof(hdr))` with `sizeof(hdr) = 8`. -/
def buildHeader (counter : Int) : Option icmphdr :=
  let hdr : icmphdr :=
    { type := ICMP_ECHO, code := 0, checksum := 0, id := htons ID, sequence := htons counter }
  (checksum (asWords hdr) 8).map (fun c => { hdr with checksum := c })

/-! ## The ping loop (src/ping.c lines 122-258) -/

/-- The macro `MAX(a,b) ((a>b)?a:b)`. -/
def MAX (a b : ℚ) : ℚ := if a > b then a else b

/-- The macro `MIN(a,b) ((a<b)?a:b)`. -/
def MIN (a b : ℚ) : ℚ := if a < b then a else b

/-- The constant `INT_MAX` of a 32-bit `int`. -/
def INT_MAX : Int := 2147483647

/-- The fields of `struct timeval`. -/
structure timeval where
  tv_sec : Int
  tv_usec : Int
deriving DecidableEq, Repr

/-- What the environment does in one iteration of the loop: the values returned by
`sendto` and `recvfrom`, the two times read by `gettimeofday`, and the value
of the global `interrupt` when it is tested after `recvfrom`. -/
structure Event where
  sendStatus : Int
  recvStatus : Int
  start_pkt : timeval
  end_pkt : timeval
  interrupt : Bool
deriving DecidableEq, Repr

/-- The local variables of `ping` that live across iterations.  The last two
fields are not variables of the program: `seqs` lists the values of `counter`
of the packets for which `sendto` returned a positive value (the sequence
number given to `htons` and printed as `icmp_seq`), `samples` lists the values
of `millis` fed into the statistics, both in order. -/
structure PingState where
  counter : Int
  transmitted : Int
  received : Int
  mini : ℚ
  maxi : ℚ
  tsum : ℚ
  tsum_2 : ℚ
  seqs : List Int
  samples : List ℚ
deriving DecidableEq

/-- The declarations `mini=INT_MAX, maxi=0`, `tsum=0.0, tsum_2=0.0`,
`transmitted=0, received=0`, `counter=0`. -/
def initState : PingState :=
  { counter := 0, transmitted := 0, received := 0, mini := INT_MAX, maxi := 0,
    tsum := 0, tsum_2 := 0, seqs := [], samples := [] }

/-- Lines 217-219: `seconds`, `micros` and `millis = micros/1000.0` of one packet. -/
def packetMillis (ev : Event) : ℚ :=
  let seconds : Int := ev.end_pkt.tv_sec - ev.start_pkt.tv_sec
  let micros : Int := ((seconds * 1000000) + ev.end_pkt.tv_usec) - ev.start_pkt.tv_usec
  (micros : ℚ) / 1000

/-- Lines 161-197: `counter++`, the header is built, `sendto` is called, and
`transmitted++` unless its status is `<= 0`.  The second component is
`packet_sent`. -/
def sendStep (ev : Event) (s : PingState) : PingState × Bool :=
  let counter := s.counter + 1
  if ev.sendStatus ≤ 0 then ({ s with counter := counter }, false)
  else ({ s with counter := counter, transmitted := s.transmitted + 1,
                 seqs := s.seqs ++ [counter] }, true)

/-- Lines 210-227: what follows the test of `interrupt`. -/
def recvStep (ev : Event) (packet_sent : Bool) (s : PingState) : PingState :=
  if ev.recvStatus ≤ 0 ∧ s.counter > 1 then s
  else if packet_sent then
    let millis := packetMillis ev
    { s with received := s.received + 1,
             mini := MIN s.mini millis,
             maxi := MAX s.maxi millis,
             tsum := s.tsum + millis,
             tsum_2 := s.tsum_2 + millis * millis,
             samples := s.samples ++ [millis] }
  else s

/-- One pass through the body of the `while` loop.  The second component says
whether the body left the loop by `break`. -/
def iteration (ev : Event) (s : PingState) : PingState × Bool :=
  let sent := sendStep ev s
  if ev.interrupt then (sent.1, true)
  else (recvStep ev sent.2 sent.1, false)

/-- The loop `while(count==0 || counter<count)`, one event per iteration.  The result
is the state at the exit and whether the exit was by `break`; `none` when the
events are used up while the loop is still running. -/
def pingLoop (count : Int) : List Event → PingState → Option (PingState × Bool)
  | [], s => if count = 0 ∨ s.counter < count then none else some (s, false)
  | ev :: rest, s =>
    if count = 0 ∨ s.counter < count then
      if (iteration ev s).2 then some ((iteration ev s).1, true)
      else pingLoop count rest (iteration ev s).1
    else some (s, false)

/-- What the summary block prints, with the values it is computed from.
`variance` is the argument of `sqrt` in `std_dev = sqrt(tsum_2 - tsum*tsum)`;
`rtt_printed` holds the first three arguments of the last `fprintf`, in the
order they are passed to the format `rtt min/avg/max/mdev = ...` (the fourth
is `std_dev`).  `counter`, `seqs` and `samples` are carried over from the
loop. -/
structure Summary where
  transmitted : Int
  received : Int
  pkt_loss : ℚ
  mini : ℚ
  maxi : ℚ
  average : ℚ
  variance : ℚ
  rtt_printed : List ℚ
  counter : Int
  seqs : List Int
  samples : List ℚ
deriving DecidableEq

/-- Lines 239-251, from the state at the exit of the loop and the value of
`interrupt` at line 244. -/
def summarize (s : PingState) (interrupt : Bool) : Summary :=
  let average := s.tsum / s.received
  let tsum := s.tsum / s.received
  let tsum_2 := s.tsum_2 / s.received
  let variance := tsum_2 - tsum * tsum
  let transmitted := if interrupt then s.transmitted - 1 else s.transmitted
  let pkt_loss : ℚ := 1 * ((transmitted : ℚ) - (s.received : ℚ)) / (transmitted : ℚ) * 100
  { transmitted := transmitted, received := s.received, pkt_loss := pkt_loss,
    mini := s.mini, maxi := s.maxi, average := average, variance := variance,
    rtt_printed := [s.mini, s.maxi, average],
    counter := s.counter, seqs := s.seqs, samples := s.samples }

/-- How a call of `ping` ends: one of the two `setsockopt` calls failed and the
function returned before the loop, or the events were used up while the loop
was running, or the summary was printed. -/
inductive PingResult where
  | setupFailed (msg : String)
  | unfinished
  | summary (s : Summary)
deriving DecidableEq

/-- The function `ping`.  `ttlStatus` and `timeoutStatus` are the values returned by
the two `setsockopt` calls, `count` is the global of that name, `late` says
whether `interrupt` is set between the exit of the loop and line 244. -/
def ping (ttlStatus timeoutStatus : Int) (count : Int) (evs : List Event) (late : Bool) :
    PingResult :=
  if ttlStatus ≠ 0 then PingResult.setupFailed "Failed to modify TTL in socket options"
  else if timeoutStatus ≠ 0 then
    PingResult.setupFailed "Failed to modify timeout in socket options"
  else
    match pingLoop count evs initState with
    | none => PingResult.unfinished
    | some (s, broke) => PingResult.summary (summarize s (broke || late))

/-- The summary of a result, when there is one. -/
def PingResult.summary? : PingResult → Option Summary
  | PingResult.summary s => some s
  | _ => none

/-- An exchange in which `sendto` and `recvfrom` both return `8` and the reply arrives
`micros` microseconds after the request, with the interrupt flag clear. -/
def okEvent (micros : Int) : Event :=
  { sendStatus := 8, recvStatus := 8, start_pkt := ⟨0, 0⟩, end_pkt := ⟨0, micros⟩,
    interrupt := false }

/-- The relation between the statistics variables and the samples fed into them:
`received` counts the samples, `tsum` and `tsum_2` are their sum and the sum
of their squares, and every sample lies between `mini` and `maxi`. -/
def StatsInv (s : PingState) : Prop :=
  s.received = (s.samples.length : Int) ∧
  s.tsum = s.samples.sum ∧
  s.tsum_2 = (s.samples.map (fun x => x * x)).sum ∧
  ∀ x ∈ s.samples, s.mini ≤ x ∧ x ≤ s.maxi

/-- The statistics variables a sample is accumulated into. -/
def stats (s : PingState) : Int × ℚ × ℚ × ℚ × ℚ :=
  (s.received, s.mini, s.maxi, s.tsum, s.tsum_2)

/-- An iteration in which `sendto` fails with `-1` and the interrupt flag is found set
after `recvfrom`, which was interrupted and returned `-1`. -/
def failedInterrupted : Event :=
  { sendStatus := -1, recvStatus := -1, start_pkt := ⟨0, 0⟩, end_pkt := ⟨0, 0⟩,
    interrupt := true }

/-- An iteration in which `sendto` returns `8`, `recvfrom` runs into the timeout and
returns `-1` two seconds later, and the interrupt flag is clear. -/
def timeoutEvent : Event :=
  { sendStatus := 8, recvStatus := -1, start_pkt := ⟨0, 0⟩, end_pkt := ⟨2, 0⟩,
    interrupt := false }

/-- An iteration in which `sendto` returns `8` and the interrupt flag is found set
after `recvfrom`, which was interrupted and returned `-1`. -/
def sentInterrupted : Event :=
  { sendStatus := 8, recvStatus := -1, start_pkt := ⟨0, 0⟩, end_pkt := ⟨0, 500000⟩,
    interrupt := true }

/-- The summary of a run with `count = 3` whose three exchanges take 10, 20 and 30
milliseconds. -/
def summary3 : Summary :=
  { transmitted := 3, received := 3, pkt_loss := 0, mini := 10, maxi := 30, average := 20,
    variance := 200 / 3, rtt_printed := [10, 30, 20], counter := 3, seqs := [1, 2, 3],
    samples := [10, 20, 30] }

/-- Closed form of the one's-complement sum of words whose plain sum is `t`: `0` for
`t = 0`, otherwise the representative of `t` modulo `65535` in `1..65535`. -/
def onesNorm (t : Nat) : Nat := if t = 0 then 0 else (t - 1) % 65535 + 1

/-- The relation between the counters that every iteration preserves. -/
def CountInv (s : PingState) : Prop :=
  0 ≤ s.received ∧ s.received ≤ s.transmitted ∧ s.transmitted ≤ s.counter

/-! ## Theorems about `checksum` and the echo header -/

theorem addShort_zero : addShort 0 0 = 0 := by decide

theorem sumLoop_zeros (k : Nat) : sumLoop (List.replicate k 0) (2 * k) 0 = some 0 := by
  induction k with
  | zero => simp [sumLoop]
  | succ k ih =>
    have h2 : 2 * (k + 1) - 2 = 2 * k := by omega
    have h1 : 2 * (k + 1) > 1 := by omega
    simp only [List.replicate_succ, sumLoop, h1, if_true, h2, addShort_zero, ih]

theorem addShort_small (sum w : Nat) (hw : w < 32768) (hs : sum + w < 4294967296) :
    addShort sum w = sum + w := by
  unfold addShort asShort
  have h1 : w % 65536 = w := Nat.mod_eq_of_lt (by omega)
  rw [h1, if_pos hw]
  omega

theorem sumLoop_small :
    ∀ (data : List Nat) (acc : Nat), (∀ w ∈ data, w < 32768) →
      acc + data.sum < 4294967296 →
      sumLoop data (2 * data.length) acc = some (acc + data.sum) := by
  intro data
  induction data with
  | nil => intro acc _ _; simp [sumLoop]
  | cons w rest ih =>
    intro acc hsmall hsum
    have hw := hsmall w (List.mem_cons_self w rest)
    simp only [List.sum_cons] at hsum
    have h1 : 2 * (w :: rest).length > 1 := by simp only [List.length_cons]; omega
    have h2 : 2 * (w :: rest).length - 2 = 2 * rest.length := by
      simp only [List.length_cons]; omega
    simp only [sumLoop, h1, if_true, h2]
    rw [addShort_small acc w hw (by omega)]
    rw [ih (acc + w) (fun x hx => hsmall x (List.mem_cons_of_mem w hx)) (by omega)]
    simp only [List.sum_cons]
    congr 1
    omega

theorem onesAdd_onesNorm (x w : Nat) (hw : w < 65536) :
    onesAdd (onesNorm x) w = onesNorm (x + w) := by
  unfold onesAdd onesNorm
  split_ifs <;> omega

theorem foldl_onesAdd :
    ∀ (data : List Nat) (x : Nat), (∀ w ∈ data, w < 65536) →
      data.foldl onesAdd (onesNorm x) = onesNorm (x + data.sum) := by
  intro data
  induction data with
  | nil => intro x _; simp
  | cons w rest ih =>
    intro x h
    simp only [List.foldl_cons, List.sum_cons]
    rw [onesAdd_onesNorm x w (h w (List.mem_cons_self w rest)),
      ih (x + w) (fun y hy => h y (List.mem_cons_of_mem w hy))]
    congr 1
    omega

theorem complement16_foldSum (t : Nat) (ht : t < 4294967296) :
    complement16 (foldSum t) = 65535 - onesNorm t := by
  have hdecomp : t = 65536 * (t / 65536) + t % 65536 := (Nat.div_add_mod t 65536).symm
  have hlo : t % 65536 < 65536 := Nat.mod_lt _ (by decide)
  have hhi : t / 65536 < 65536 := by omega
  generalize t / 65536 = hi at hdecomp hhi
  generalize t % 65536 = lo at hdecomp hlo
  subst hdecomp
  have hfold : foldSum (65536 * hi + lo) =
      if hi + lo < 65536 then hi + lo else hi + lo + 1 := by
    simp only [foldSum]
    split_ifs <;> omega
  have hnorm : onesNorm (65536 * hi + lo) =
      if hi + lo < 65536 then hi + lo else hi + lo - 65535 := by
    simp only [onesNorm]
    by_cases h0 : 65536 * hi + lo = 0
    · rw [if_pos h0]
      split_ifs <;> omega
    · rw [if_neg h0]
      by_cases hc : hi + lo < 65536
      · rw [if_pos hc]
        have e : 65536 * hi + lo - 1 = (hi + lo - 1) + 65535 * hi := by omega
        rw [e, Nat.add_mul_mod_self_left, Nat.mod_eq_of_lt (by omega)]
        omega
      · rw [if_neg hc]
        have e : 65536 * hi + lo - 1 = (hi + lo - 65536) + 65535 * (hi + 1) := by omega
        rw [e, Nat.add_mul_mod_self_left, Nat.mod_eq_of_lt (by omega)]
        omega
  rw [hfold, hnorm]
  simp only [complement16]
  split_ifs <;> omega

theorem list_sum_le (b : Nat) :
    ∀ data : List Nat, (∀ w ∈ data, w < b) → data.sum ≤ data.length * b := by
  intro data
  induction data with
  | nil => intro _; simp
  | cons w rest ih =>
    intro h
    have := ih (fun y hy => h y (List.mem_cons_of_mem w hy))
    have hw := h w (List.mem_cons_self w rest)
    simp only [List.sum_cons, List.length_cons]
    nlinarith

/-- On a buffer of fewer than `65536` shorts none of which has its top bit set,
`checksum` returns the RFC 1071 checksum. -/
theorem checksum_eq_rfc1071_of_small (data : List Nat) (hsmall : ∀ w ∈ data, w < 32768)
    (hlen : data.length < 65536) :
    checksum data (2 * data.length) = some (rfc1071 data) := by
  have hsum := list_sum_le 32768 data hsmall
  have hlt : data.sum < 4294967296 := by nlinarith
  have hev : ¬ (2 * data.length % 2 = 1) := by omega
  have hl := sumLoop_small data 0 hsmall (by omega)
  simp only [checksum, hev, if_false, hl, Option.map_some', Nat.zero_add]
  rw [complement16_foldSum _ hlt]
  unfold rfc1071 onesSum
  have h0 : (0 : Nat) = onesNorm 0 := by decide
  rw [h0, foldl_onesAdd data 0 (fun w hw => by have := hsmall w hw; omega)]
  simp

theorem addShort_eq (sum w : Nat) (hw : w < 65536) :
    addShort sum w =
      if w < 32768 then (sum + w) % 4294967296 else (sum + w + 4294901760) % 4294967296 := by
  unfold addShort asShort
  have h1 : w % 65536 = w := Nat.mod_eq_of_lt hw
  rw [h1]
  split_ifs <;> omega

/-- The checksum of the four header words with sequence word `w`, put into the
checksum field, makes the one's-complement sum of the header `0xFFFF` exactly
when `w < 0xB9E3`; otherwise the sum is `0x0001`. -/
theorem header_checksum_verify (w : Nat) (hw : w < 65536) :
    (checksum [8, 0, 17941, w] 8).map (fun c => onesSum [8, c, 17941, w]) =
      some (if w < 47587 then 65535 else 1) := by
  have h8 : addShort 0 8 = 8 := by decide
  have h0 : addShort 8 0 = 8 := by decide
  have h3 : addShort 8 17941 = 17949 := by decide
  have hev : ¬ (8 % 2 = 1) := by decide
  simp only [checksum, hev, if_false, sumLoop, h8, h0, h3, Option.map_some', onesSum,
    List.foldl, gt_iff_lt, Nat.lt_irrefl, Nat.reduceSub, Nat.reduceLT, if_true]
  rw [addShort_eq 17949 w hw]
  simp only [foldSum, complement16, onesAdd]
  congr 1
  split_ifs <;> omega

/-- Swapping the bytes twice gives the sequence number back: the receiver reads
`counter` from the sequence field as long as `counter < 65536`. -/
theorem htons_htons (k : Nat) (hk : k < 65536) : htons (htons k) = k := by
  have hv : ∀ m : Nat, m < 65536 → (((m : Int) % 65536).toNat) = m := by
    intro m hm
    omega
  have hw : k % 256 * 256 + k / 256 < 65536 := by omega
  have e1 : (k % 256 * 256 + k / 256) % 256 = k / 256 := by omega
  have e2 : (k % 256 * 256 + k / 256) / 256 = k % 256 := by omega
  simp only [htons, hv k hk]
  rw [hv _ hw, e1, e2]
  omega

theorem htons_lt (x : Int) : htons x < 65536 := by
  simp only [htons]
  have h : (x % 65536).toNat < 65536 := by omega
  omega

/-- The header built for the counter `n` passes the checksum verification exactly
when `htons n < 0xB9E3`. -/
theorem buildHeader_verify (n : Int) :
    (buildHeader n).map (fun h => onesSum (asWords h)) =
      some (if htons n < 47587 then 65535 else 1) := by
  have hid : htons ID = 17941 := by
    simp only [htons, ID]
    omega
  have h := header_checksum_verify (htons n) (htons_lt n)
  simp only [buildHeader, asWords, ICMP_ECHO, hid, Option.map_map, Nat.mul_zero, Nat.add_zero]
  cases hck : checksum [8, 0, 17941, htons n] 8 with
  | none =>
    rw [hck] at h
    simp at h
  | some c =>
    rw [hck] at h
    simp only [Option.map_some', Function.comp_apply, Nat.mul_zero, Nat.add_zero] at h ⊢
    exact h

/-- C1, evaluated on the code: for the buffer of the two shorts `0x8000, 0x8000`
(four bytes) `checksum` returns `0x0000`, while the RFC 1071 checksum of
these two unsigned words is `0xFFFE`. -/
theorem checksum_two_high_words :
    checksum [0x8000, 0x8000] 4 = some 0x0000 ∧ rfc1071 [0x8000, 0x8000] = 0xFFFE := by
  decide

/-- C2, evaluated on the code: the header built in iteration `192` has the words
`0x0008, 0xF9E2, 0x4615, 0xC000`; their one's-complement sum is `0x0001`, not
`0xFFFF`, so the recomputed checksum is `0xFFFE`, not zero. -/
theorem header_192_fails_verification :
    (buildHeader 192).map asWords = some [0x0008, 0xF9E2, 0x4615, 0xC000] ∧
    (buildHeader 192).map (fun h => onesSum (asWords h)) = some 0x0001 ∧
    (buildHeader 192).map (fun h => rfc1071 (asWords h)) = some 0xFFFE := by
  decide

/-- C10 as stated fails: the value returned for the odd byte count `1` is the value
returned for the all-zero buffer of two bytes. -/
theorem checksum_odd_not_distinguishable :
    checksum [0] 1 = checksum [0] 2 := by
  decide

/-- C10, amended: for every odd byte count `checksum` returns the sentinel `65535`
(`-1` as `unsigned short`) whatever the buffer holds, and this is also the
checksum of every all-zero buffer of even length. -/
theorem checksum_odd_sentinel (data : List Nat) (bytes : Nat) (hodd : bytes % 2 = 1) (k : Nat) :
    checksum data bytes = some 65535 ∧
    checksum (List.replicate k 0) (2 * k) = some 65535 := by
  constructor
  · simp [checksum, hodd]
  · have hev : ¬ (2 * k % 2 = 1) := by omega
    simp only [checksum, hev, if_false, sumLoop_zeros, Option.map_some']
    decide

theorem checksum_odd_sentinel_witness :
    3 % 2 = 1 ∧ checksum [0x1234, 0x5678] 3 = some 65535 ∧
    checksum (List.replicate 4 0) (2 * 4) = some 65535 :=
  ⟨by decide, checksum_odd_sentinel [0x1234, 0x5678] 3 (by decide) 4⟩

/-! ## Theorems about one iteration -/

theorem iteration_ok (ev : Event) (s : PingState) (hsend : 0 < ev.sendStatus)
    (hint : ev.interrupt = false) :
    (iteration ev s).2 = false ∧
    (iteration ev s).1.counter = s.counter + 1 ∧
    (iteration ev s).1.transmitted = s.transmitted + 1 ∧
    (iteration ev s).1.seqs = s.seqs ++ [s.counter + 1] ∧
    (0 < ev.recvStatus → (iteration ev s).1.received = s.received + 1) := by
  have hs : ¬ ev.sendStatus ≤ 0 := not_le.mpr hsend
  refine ⟨?_, ?_, ?_, ?_, ?_⟩
  · simp [iteration, hint]
  · simp only [iteration, hint, sendStep, hs, recvStep]
    split_ifs <;> first | contradiction | simp
  · simp only [iteration, hint, sendStep, hs, recvStep]
    split_ifs <;> first | contradiction | simp
  · simp only [iteration, hint, sendStep, hs, recvStep]
    split_ifs <;> first | contradiction | simp
  · intro hrecv
    have hr : ¬ ev.recvStatus ≤ 0 := not_le.mpr hrecv
    simp [iteration, hint, sendStep, hs, recvStep, hr]

theorem iteration_interrupted (ev : Event) (s : PingState) (hsend : 0 < ev.sendStatus)
    (hint : ev.interrupt = true) :
    (iteration ev s).2 = true ∧
    (iteration ev s).1.counter = s.counter + 1 ∧
    (iteration ev s).1.transmitted = s.transmitted + 1 ∧
    (iteration ev s).1.received = s.received := by
  have hs : ¬ ev.sendStatus ≤ 0 := not_le.mpr hsend
  simp [iteration, hint, sendStep, hs]

theorem stats_sendStep (ev : Event) (s : PingState) : stats (sendStep ev s).1 = stats s := by
  unfold sendStep
  split_ifs <;> rfl

theorem counter_sendStep (ev : Event) (s : PingState) :
    (sendStep ev s).1.counter = s.counter + 1 := by
  unfold sendStep
  split_ifs <;> rfl

theorem sent_sendStep (ev : Event) (s : PingState) :
    (sendStep ev s).2 = true ↔ 0 < ev.sendStatus := by
  unfold sendStep
  split_ifs with h
  · simp only [Bool.false_eq_true, false_iff, not_lt]
    exact h
  · simp only [true_iff]
    exact not_le.mp h

theorem counter_recvStep (ev : Event) (b : Bool) (s : PingState) :
    (recvStep ev b s).counter = s.counter := by
  unfold recvStep
  split_ifs <;> rfl

theorem counter_iteration (ev : Event) (s : PingState) :
    (iteration ev s).1.counter = s.counter + 1 := by
  unfold iteration
  split_ifs
  · exact counter_sendStep ev s
  · rw [counter_recvStep, counter_sendStep]

theorem recvStep_skip (ev : Event) (b : Bool) (s : PingState)
    (h : (ev.recvStatus ≤ 0 ∧ s.counter > 1) ∨ b = false) : recvStep ev b s = s := by
  unfold recvStep
  split_ifs with h1 h2
  · rfl
  · rcases h with h | h
    · exact absurd h h1
    · rw [h] at h2
      exact absurd h2 (by decide)
  · rfl

theorem recvStep_record (ev : Event) (s : PingState)
    (h : ¬ (ev.recvStatus ≤ 0 ∧ s.counter > 1)) :
    recvStep ev true s =
      { s with received := s.received + 1,
               mini := MIN s.mini (packetMillis ev),
               maxi := MAX s.maxi (packetMillis ev),
               tsum := s.tsum + packetMillis ev,
               tsum_2 := s.tsum_2 + packetMillis ev * packetMillis ev,
               samples := s.samples ++ [packetMillis ev] } := by
  unfold recvStep
  rw [if_neg h]
  simp

theorem MIN_le_left (a b : ℚ) : MIN a b ≤ a := by
  unfold MIN
  split_ifs with h
  · exact le_refl a
  · exact not_lt.mp h

theorem MIN_le_right (a b : ℚ) : MIN a b ≤ b := by
  unfold MIN
  split_ifs with h
  · exact le_of_lt h
  · exact le_refl b

theorem le_MAX_left (a b : ℚ) : a ≤ MAX a b := by
  unfold MAX
  split_ifs with h
  · exact le_refl a
  · exact not_lt.mp h

theorem le_MAX_right (a b : ℚ) : b ≤ MAX a b := by
  unfold MAX
  split_ifs with h
  · exact le_of_lt h
  · exact le_refl b

theorem StatsInv_init : StatsInv initState := by
  simp [StatsInv, initState]

theorem StatsInv_record (s : PingState) (millis : ℚ) (h : StatsInv s) :
    StatsInv { s with received := s.received + 1,
                      mini := MIN s.mini millis,
                      maxi := MAX s.maxi millis,
                      tsum := s.tsum + millis,
                      tsum_2 := s.tsum_2 + millis * millis,
                      samples := s.samples ++ [millis] } := by
  obtain ⟨h1, h2, h3, h4⟩ := h
  refine ⟨?_, ?_, ?_, ?_⟩
  · simp [h1]
  · simp [h2]
  · simp [h3]
  · intro x hx
    simp only [List.mem_append, List.mem_singleton] at hx
    rcases hx with hx | hx
    · exact ⟨le_trans (MIN_le_left _ _) (h4 x hx).1, le_trans (h4 x hx).2 (le_MAX_left _ _)⟩
    · subst hx
      exact ⟨MIN_le_right _ _, le_MAX_right _ _⟩

theorem StatsInv_sendStep (ev : Event) (s : PingState) (h : StatsInv s) :
    StatsInv (sendStep ev s).1 := by
  unfold sendStep
  split_ifs <;> exact h

theorem StatsInv_recvStep (ev : Event) (b : Bool) (s : PingState) (h : StatsInv s) :
    StatsInv (recvStep ev b s) := by
  unfold recvStep
  split_ifs
  · exact h
  · exact StatsInv_record s (packetMillis ev) h
  · exact h

theorem StatsInv_iteration (ev : Event) (s : PingState) (h : StatsInv s) :
    StatsInv (iteration ev s).1 := by
  unfold iteration
  split_ifs
  · exact StatsInv_sendStep ev s h
  · exact StatsInv_recvStep ev _ _ (StatsInv_sendStep ev s h)

/-! ## Theorems about the loop -/

/-- A property of the state that every iteration preserves holds at the exit of the
loop. -/
theorem pingLoop_invariant (P : PingState → Prop) (count : Int)
    (hstep : ∀ ev s, P s → P (iteration ev s).1) :
    ∀ (evs : List Event) (s : PingState) (r : PingState × Bool),
      P s → pingLoop count evs s = some r → P r.1 := by
  intro evs
  induction evs with
  | nil =>
    intro s r hs hrun
    simp only [pingLoop] at hrun
    split_ifs at hrun
    cases hrun
    exact hs
  | cons ev rest ih =>
    intro s r hs hrun
    simp only [pingLoop] at hrun
    split_ifs at hrun with hc hb
    · cases hrun
      exact hstep ev s hs
    · exact ih _ r (hstep ev s hs) hrun
    · cases hrun
      exact hs

theorem pingLoop_StatsInv (count : Int) (evs : List Event) (r : PingState × Bool)
    (hrun : pingLoop count evs initState = some r) : StatsInv r.1 :=
  pingLoop_invariant StatsInv count StatsInv_iteration evs initState r StatsInv_init hrun

/-- A run of `ping` that prints a summary comes from an exit state of the loop. -/
theorem ping_summary_inv (ttl tmo count : Int) (evs : List Event) (late : Bool) (sm : Summary)
    (hrun : ping ttl tmo count evs late = PingResult.summary sm) :
    ∃ r : PingState × Bool, pingLoop count evs initState = some r ∧
      sm = summarize r.1 (r.2 || late) := by
  unfold ping at hrun
  split_ifs at hrun
  split at hrun
  · cases hrun
  · rename_i s broke heq
    cases hrun
    exact ⟨(s, broke), heq, rfl⟩

theorem pingLoop_exit (count : Int) (evs : List Event) (s : PingState)
    (hstop : ¬ (count = 0 ∨ s.counter < count)) :
    pingLoop count evs s = some (s, false) := by
  cases evs <;> simp only [pingLoop, hstop, if_false]

theorem pingLoop_starved (count : Int) (s : PingState)
    (hgo : count = 0 ∨ s.counter < count) :
    pingLoop count [] s = none := by
  simp only [pingLoop, hgo, if_true]

/-- A prefix of iterations in which `sendto` succeeds and the interrupt flag is clear
is run through completely, provided the loop condition allows as many
iterations. -/
theorem pingLoop_prefix (count : Int) (rest : List Event) :
    ∀ (evs : List Event) (s : PingState) (c : Nat), s.counter = (c : Int) →
      (count = 0 ∨ (c : Int) + (evs.length : Int) ≤ count) →
      (∀ ev ∈ evs, 0 < ev.sendStatus ∧ ev.interrupt = false) →
      ∃ s1 : PingState, pingLoop count (evs ++ rest) s = pingLoop count rest s1 ∧
        s1.counter = (c : Int) + (evs.length : Int) ∧
        s1.transmitted = s.transmitted + (evs.length : Int) ∧
        s1.seqs = s.seqs ++ (List.range' (c + 1) evs.length).map (fun k => (k : Int)) ∧
        ((∀ ev ∈ evs, 0 < ev.recvStatus) → s1.received = s.received + (evs.length : Int)) := by
  intro evs
  induction evs with
  | nil =>
    intro s c hc _ _
    exact ⟨s, rfl, by simp [hc], by simp, by simp, fun _ => by simp⟩
  | cons ev evs ih =>
    intro s c hc hcount hok
    have hev := hok ev (List.mem_cons_self ev evs)
    obtain ⟨h2, hcnt, htr, hsq, hrc⟩ := iteration_ok ev s hev.1 hev.2
    have hgo : count = 0 ∨ s.counter < count := by
      rcases hcount with h | h
      · exact Or.inl h
      · right
        simp only [List.length_cons, Nat.cast_add, Nat.cast_one] at h
        omega
    have hc1 : (iteration ev s).1.counter = ((c + 1 : Nat) : Int) := by
      rw [hcnt, hc]; simp
    have hcount1 : count = 0 ∨ ((c + 1 : Nat) : Int) + (evs.length : Int) ≤ count := by
      rcases hcount with h | h
      · exact Or.inl h
      · right
        simp only [List.length_cons, Nat.cast_add, Nat.cast_one] at h
        simp only [Nat.cast_add, Nat.cast_one]
        omega
    obtain ⟨s1, hrun, k1, k2, k3, k4⟩ := ih (iteration ev s).1 (c + 1) hc1 hcount1
      (fun e he => hok e (List.mem_cons_of_mem ev he))
    refine ⟨s1, ?_, ?_, ?_, ?_, ?_⟩
    · rw [← hrun]
      simp only [List.cons_append, pingLoop, hgo, if_true, h2]
      simp
    · rw [k1]
      simp only [List.length_cons, Nat.cast_add, Nat.cast_one]
      omega
    · rw [k2, htr]
      simp only [List.length_cons, Nat.cast_add, Nat.cast_one]
      omega
    · rw [k3, hsq, hc]
      simp [List.range'_succ]
    · intro hrecv
      rw [k4 (fun e he => hrecv e (List.mem_cons_of_mem ev he)),
        hrc (hrecv ev (List.mem_cons_self ev evs))]
      simp only [List.length_cons, Nat.cast_add, Nat.cast_one]
      omega

/-! ## Theorems about the statistics -/

theorem sum_bounds (a b : ℚ) :
    ∀ l : List ℚ, (∀ x ∈ l, a ≤ x ∧ x ≤ b) →
      a * (l.length : ℚ) ≤ l.sum ∧ l.sum ≤ b * (l.length : ℚ) := by
  intro l
  induction l with
  | nil => intro _; simp
  | cons x l ih =>
    intro h
    have hx := h x (List.mem_cons_self x l)
    have hl := ih (fun y hy => h y (List.mem_cons_of_mem x hy))
    simp only [List.length_cons, List.sum_cons, Nat.cast_add, Nat.cast_one]
    constructor
    · nlinarith [hx.1, hl.1]
    · nlinarith [hx.2, hl.2]

theorem ping_summary3 :
    ping 0 0 3 [okEvent 10000, okEvent 20000, okEvent 30000] false =
      PingResult.summary summary3 := by
  simp [ping, pingLoop, iteration, sendStep, recvStep, okEvent, initState, summarize,
    packetMillis, MIN, MAX, INT_MAX, summary3]
  norm_num

theorem received_recvStep (ev : Event) (b : Bool) (s : PingState) :
    (recvStep ev b s).received = s.received ∨
      (b = true ∧ (recvStep ev b s).received = s.received + 1) := by
  unfold recvStep
  split_ifs with h1 h2
  · exact Or.inl rfl
  · exact Or.inr ⟨h2, rfl⟩
  · exact Or.inl rfl

theorem transmitted_recvStep (ev : Event) (b : Bool) (s : PingState) :
    (recvStep ev b s).transmitted = s.transmitted := by
  unfold recvStep
  split_ifs <;> rfl

theorem sendStep_counts (ev : Event) (s : PingState) :
    (sendStep ev s).1.received = s.received ∧
    (((sendStep ev s).2 = false ∧ (sendStep ev s).1.transmitted = s.transmitted) ∨
      ((sendStep ev s).2 = true ∧ (sendStep ev s).1.transmitted = s.transmitted + 1)) := by
  unfold sendStep
  split_ifs
  · exact ⟨rfl, Or.inl ⟨rfl, rfl⟩⟩
  · exact ⟨rfl, Or.inr ⟨rfl, rfl⟩⟩

theorem CountInv_iteration (ev : Event) (s : PingState) (h : CountInv s) :
    CountInv (iteration ev s).1 := by
  obtain ⟨h1, h2, h3⟩ := h
  obtain ⟨k1, k2⟩ := sendStep_counts ev s
  have kc := counter_sendStep ev s
  unfold iteration
  split_ifs
  · refine ⟨?_, ?_, ?_⟩
    · show 0 ≤ (sendStep ev s).1.received
      omega
    · show (sendStep ev s).1.received ≤ (sendStep ev s).1.transmitted
      rcases k2 with k2 | k2 <;> omega
    · show (sendStep ev s).1.transmitted ≤ (sendStep ev s).1.counter
      rcases k2 with k2 | k2 <;> omega
  · have r1 := received_recvStep ev (sendStep ev s).2 (sendStep ev s).1
    have r2 := transmitted_recvStep ev (sendStep ev s).2 (sendStep ev s).1
    have r3 := counter_recvStep ev (sendStep ev s).2 (sendStep ev s).1
    refine ⟨?_, ?_, ?_⟩
    · show 0 ≤ (recvStep ev (sendStep ev s).2 (sendStep ev s).1).received
      rcases r1 with r1 | r1 <;> omega
    · show (recvStep ev (sendStep ev s).2 (sendStep ev s).1).received ≤
        (recvStep ev (sendStep ev s).2 (sendStep ev s).1).transmitted
      rcases r1 with r1 | ⟨rb, r1⟩
      · rcases k2 with k2 | k2 <;> omega
      · rcases k2 with ⟨kb, _⟩ | ⟨_, k2⟩
        · rw [kb] at rb
          exact absurd rb (by decide)
        · omega
    · show (recvStep ev (sendStep ev s).2 (sendStep ev s).1).transmitted ≤
        (recvStep ev (sendStep ev s).2 (sendStep ev s).1).counter
      rcases k2 with k2 | k2 <;> omega

theorem pingLoop_no_break (count : Int) :
    ∀ (evs : List Event) (s : PingState) (r : PingState × Bool),
      (∀ ev ∈ evs, ev.interrupt = false) → pingLoop count evs s = some r → r.2 = false := by
  intro evs
  induction evs with
  | nil =>
    intro s r _ hrun
    simp only [pingLoop] at hrun
    split_ifs at hrun
    cases hrun
    rfl
  | cons ev rest ih =>
    intro s r hno hrun
    have hev := hno ev (List.mem_cons_self ev rest)
    have hb : (iteration ev s).2 = false := by simp [iteration, hev]
    simp only [pingLoop, hb, Bool.false_eq_true, if_false] at hrun
    split_ifs at hrun
    · exact ih _ r (fun e he => hno e (List.mem_cons_of_mem ev he)) hrun
    · cases hrun
      rfl

/-- In a run in which the interrupt flag is never set, the summary satisfies
`0 <= received <= transmitted`, and the loss percentage lies between 0 and 100
when `transmitted > 0`. -/
theorem ping_counts_uninterrupted (ttl tmo count : Int) (evs : List Event) (sm : Summary)
    (hrun : ping ttl tmo count evs false = PingResult.summary sm)
    (hno : ∀ ev ∈ evs, ev.interrupt = false) :
    0 ≤ sm.received ∧ sm.received ≤ sm.transmitted ∧
    (0 < sm.transmitted → 0 ≤ sm.pkt_loss ∧ sm.pkt_loss ≤ 100) := by
  obtain ⟨r, hloop, hsm⟩ := ping_summary_inv ttl tmo count evs false sm hrun
  obtain ⟨h1, h2, _⟩ := pingLoop_invariant CountInv count CountInv_iteration evs initState r
    (by simp [CountInv, initState]) hloop
  have hb := pingLoop_no_break count evs initState r hno hloop
  subst hsm
  simp only [summarize, hb, Bool.or_false, Bool.false_eq_true, if_false]
  refine ⟨h1, h2, ?_⟩
  intro hpos
  have q1 : (0 : ℚ) ≤ (r.1.received : ℚ) := by exact_mod_cast h1
  have q2 : (r.1.received : ℚ) ≤ (r.1.transmitted : ℚ) := by exact_mod_cast h2
  have q3 : (0 : ℚ) < (r.1.transmitted : ℚ) := by exact_mod_cast hpos
  constructor
  · apply mul_nonneg
    · apply div_nonneg
      · linarith
      · linarith
    · norm_num
  · rw [one_mul, div_mul_eq_mul_div, div_le_iff₀ q3]
    nlinarith

theorem pingLoop_terminates (count : Int) (hcount : count ≠ 0) :
    ∀ (evs : List Event) (s : PingState), count - s.counter ≤ (evs.length : Int) →
      ∃ r, pingLoop count evs s = some r := by
  intro evs
  induction evs with
  | nil =>
    intro s h
    have hstop : ¬ (count = 0 ∨ s.counter < count) := by
      simp only [List.length_nil, Nat.cast_zero] at h
      intro hc
      rcases hc with hc | hc
      · exact hcount hc
      · omega
    exact ⟨(s, false), pingLoop_exit count [] s hstop⟩
  | cons ev rest ih =>
    intro s h
    simp only [pingLoop]
    split_ifs with hc hb
    · exact ⟨_, rfl⟩
    · apply ih
      rw [counter_iteration]
      simp only [List.length_cons, Nat.cast_add, Nat.cast_one] at h
      omega
    · exact ⟨_, rfl⟩

/-- A run with `count >= 1` that is given at least `count` events prints a summary. -/
theorem ping_terminates (count : Int) (hcount : 1 ≤ count) (evs : List Event) (late : Bool)
    (hlen : count ≤ (evs.length : Int)) :
    ∃ sm, ping 0 0 count evs late = PingResult.summary sm := by
  obtain ⟨r, hr⟩ := pingLoop_terminates count (by omega) evs initState
    (by simp only [initState]; omega)
  exact ⟨summarize r.1 (r.2 || late), by simp [ping, hr]⟩

/-! ## The claims about the loop and the summary -/

/-- C3, evaluated on the code.  With `count = 0`, when `sendto` fails in the first
iteration and the interrupt flag is found set in that iteration, the summary
reports `transmitted = -1` and `received = 0`.  When two exchanges succeed
and the third iteration has a failing `sendto` and the interrupt flag set, the
summary reports `transmitted = 1`, `received = 2` and a loss of `-100` percent. -/
theorem interrupted_failed_send_counts :
    (ping 0 0 0 [failedInterrupted] false).summary?.map
        (fun sm => (sm.transmitted, sm.received)) = some (-1, 0) ∧
    (ping 0 0 0 [okEvent 10000, okEvent 20000, failedInterrupted] false).summary?.map
        (fun sm => (sm.transmitted, sm.received, sm.pkt_loss)) = some (1, 2, -100) := by
  constructor
  · decide
  · simp [ping, pingLoop, iteration, sendStep, recvStep, okEvent, failedInterrupted, initState,
      summarize, PingResult.summary?, packetMillis, MIN, MAX, INT_MAX]
    norm_num

/-- C4 as stated fails in the first iteration: with `counter = 1`, a `sendto` that
returned `8` and a `recvfrom` that returned `-1`, `received` becomes `1` and
the sample of 2000 ms is accumulated; the run with `count = 1` made of this
iteration reports `received = 1`. -/
theorem first_iteration_records_timeout :
    timeoutEvent.recvStatus ≤ 0 ∧
    (iteration timeoutEvent initState).1.counter = 1 ∧
    (iteration timeoutEvent initState).1.received = 1 ∧
    (iteration timeoutEvent initState).1.samples = [2000] ∧
    (ping 0 0 1 [timeoutEvent] false).summary?.map
        (fun sm => (sm.transmitted, sm.received, sm.samples)) = some (1, 1, [2000]) := by
  refine ⟨by decide, by decide, by decide, ?_, ?_⟩
  · simp [iteration, sendStep, recvStep, timeoutEvent, initState, packetMillis]
    norm_num
  · simp [ping, pingLoop, iteration, sendStep, recvStep, timeoutEvent, initState, summarize,
      PingResult.summary?, packetMillis]
    norm_num

/-- C4, amended.  In every iteration, with `counter` its value after `counter++`:
the statistics (`received`, `mini`, `maxi`, `tsum`, `tsum_2`) change only if
`sendto` returned a positive value, the interrupt flag was clear, and
`recvfrom` returned a positive value or `counter <= 1`; an iteration with
`counter > 1` whose `recvfrom` result is `<= 0` leaves them unchanged; and in
an iteration with `counter <= 1` the sample is recorded whenever `sendto`
returned a positive value and the interrupt flag was clear, whatever
`recvfrom` returned. -/
theorem iteration_records_only_if (ev : Event) (s : PingState) :
    (stats (iteration ev s).1 ≠ stats s →
      0 < ev.sendStatus ∧ ev.interrupt = false ∧
        (0 < ev.recvStatus ∨ (iteration ev s).1.counter ≤ 1)) ∧
    (ev.recvStatus ≤ 0 → 1 < (iteration ev s).1.counter →
      stats (iteration ev s).1 = stats s) ∧
    ((iteration ev s).1.counter ≤ 1 → 0 < ev.sendStatus → ev.interrupt = false →
      (iteration ev s).1.received = s.received + 1 ∧
      (iteration ev s).1.mini = MIN s.mini (packetMillis ev) ∧
      (iteration ev s).1.maxi = MAX s.maxi (packetMillis ev) ∧
      (iteration ev s).1.tsum = s.tsum + packetMillis ev ∧
      (iteration ev s).1.tsum_2 = s.tsum_2 + packetMillis ev * packetMillis ev) := by
  have hcnt := counter_iteration ev s
  refine ⟨?_, ?_, ?_⟩
  · intro hne
    by_contra hcon
    apply hne
    unfold iteration
    by_cases hi : ev.interrupt = true
    · rw [if_pos hi]
      exact stats_sendStep ev s
    · rw [if_neg hi]
      have hi0 : ev.interrupt = false := by simpa using hi
      have hskip : (ev.recvStatus ≤ 0 ∧ (sendStep ev s).1.counter > 1) ∨
          (sendStep ev s).2 = false := by
        by_cases hs : 0 < ev.sendStatus
        · left
          rw [counter_sendStep]
          by_contra hno
          apply hcon
          refine ⟨hs, hi0, ?_⟩
          rw [hcnt]
          by_cases hr : 0 < ev.recvStatus
          · exact Or.inl hr
          · right
            by_contra hc
            exact hno ⟨not_lt.mp hr, by omega⟩
        · right
          have := (sent_sendStep ev s).not.mpr hs
          simpa using this
      rw [recvStep_skip ev _ _ hskip]
      exact stats_sendStep ev s
  · intro hr hc
    unfold iteration
    by_cases hi : ev.interrupt = true
    · rw [if_pos hi]
      exact stats_sendStep ev s
    · rw [if_neg hi]
      rw [recvStep_skip ev _ _ (Or.inl ⟨hr, by rw [counter_sendStep]; omega⟩)]
      exact stats_sendStep ev s
  · intro hc hs hi
    have hsent : (sendStep ev s).2 = true := (sent_sendStep ev s).mpr hs
    have hno : ¬ (ev.recvStatus ≤ 0 ∧ (sendStep ev s).1.counter > 1) := by
      rw [counter_sendStep]
      intro h
      omega
    have hst := stats_sendStep ev s
    simp only [stats, Prod.mk.injEq] at hst
    obtain ⟨e1, e2, e3, e4, e5⟩ := hst
    have hit : (iteration ev s).1 = recvStep ev true (sendStep ev s).1 := by
      simp only [iteration, hi, hsent]
      simp
    rw [hit, recvStep_record ev _ hno]
    simp only [e1, e2, e3, e4, e5, and_self]

theorem iteration_records_only_if_witness :
    timeoutEvent.recvStatus ≤ 0 ∧
    1 < (iteration timeoutEvent (iteration (okEvent 10000) initState).1).1.counter ∧
    stats (iteration timeoutEvent (iteration (okEvent 10000) initState).1).1 =
      stats (iteration (okEvent 10000) initState).1 :=
  ⟨by decide, by decide,
    (iteration_records_only_if timeoutEvent (iteration (okEvent 10000) initState).1).2.1
      (by decide) (by decide)⟩

/-- C5.  With `count = 0`, when the first `N` iterations each have a successful
`sendto` and a successful `recvfrom` with the interrupt flag clear, and in
iteration `N+1` `sendto` succeeds and the interrupt flag is found set after
`recvfrom`, the run prints a summary, the loop has been left in iteration
`N+1`, and the summary reports `transmitted = N` and `received = N`. -/
theorem ping_interrupt_after (N : Nat) (evs : List Event) (last : Event) (rest : List Event)
    (late : Bool) (hlen : evs.length = N)
    (hok : ∀ ev ∈ evs, 0 < ev.sendStatus ∧ 0 < ev.recvStatus ∧ ev.interrupt = false)
    (hsend : 0 < last.sendStatus) (hint : last.interrupt = true) :
    ∃ sm : Summary, ping 0 0 0 (evs ++ last :: rest) late = PingResult.summary sm ∧
      sm.counter = (N : Int) + 1 ∧ sm.transmitted = (N : Int) ∧ sm.received = (N : Int) := by
  obtain ⟨s1, hrun, k1, k2, _, k4⟩ := pingLoop_prefix 0 (last :: rest) evs initState 0 rfl
    (Or.inl rfl) (fun ev hev => ⟨(hok ev hev).1, (hok ev hev).2.2⟩)
  have k4 := k4 (fun ev hev => (hok ev hev).2.1)
  obtain ⟨h2, hcnt, htr, hrc⟩ := iteration_interrupted last s1 hsend hint
  have hloop : pingLoop 0 (evs ++ last :: rest) initState = some ((iteration last s1).1, true) := by
    rw [hrun]
    simp only [pingLoop, true_or, if_true, h2]
  refine ⟨summarize (iteration last s1).1 (true || late), ?_, ?_, ?_, ?_⟩
  · simp only [ping, hloop]
    simp
  · simp only [summarize, hcnt, k1, hlen]
    simp
  · simp only [summarize, Bool.true_or, if_true, htr, k2, hlen, initState]
    omega
  · simp only [summarize, hrc, k4, hlen, initState]
    omega

theorem ping_interrupt_after_witness :
    ∃ sm : Summary,
      ping 0 0 0 ([okEvent 10000, okEvent 20000] ++ sentInterrupted :: []) false =
        PingResult.summary sm ∧
      sm.counter = ((2 : Nat) : Int) + 1 ∧ sm.transmitted = ((2 : Nat) : Int) ∧
      sm.received = ((2 : Nat) : Int) :=
  ping_interrupt_after 2 [okEvent 10000, okEvent 20000] sentInterrupted [] false rfl
    (by decide) (by decide) rfl

/-- C6.  For every count `n >= 1`, when the interrupt flag is never set and `sendto`
succeeds in each of the first `n` iterations, the run prints a summary after
exactly `n` iterations (the final `counter` is `n`, whatever events would
follow, and no shorter run finishes), the packets sent carry the sequence
numbers `1, 2, ..., n` in this order, and the summary reports
`transmitted = n`. -/
theorem ping_count_sequence (n : Nat) (hn : 1 ≤ n) (evs rest : List Event)
    (hlen : evs.length = n)
    (hok : ∀ ev ∈ evs, 0 < ev.sendStatus ∧ ev.interrupt = false) :
    (∃ sm : Summary, ping 0 0 (n : Int) (evs ++ rest) false = PingResult.summary sm ∧
      sm.counter = (n : Int) ∧
      sm.seqs = (List.range' 1 n).map (fun k => (k : Int)) ∧
      sm.transmitted = (n : Int)) ∧
    (∀ k : Nat, k < n → ping 0 0 (n : Int) (evs.take k) false = PingResult.unfinished) := by
  constructor
  · obtain ⟨s1, hrun, k1, k2, k3, _⟩ := pingLoop_prefix (n : Int) rest evs initState 0 rfl
      (Or.inr (by rw [hlen]; simp)) hok
    have hstop : ¬ ((n : Int) = 0 ∨ s1.counter < (n : Int)) := by
      rw [k1, hlen]
      intro h
      rcases h with h | h <;> omega
    have hloop : pingLoop (n : Int) (evs ++ rest) initState = some (s1, false) := by
      rw [hrun]
      exact pingLoop_exit _ rest s1 hstop
    refine ⟨summarize s1 (false || false), ?_, ?_, ?_, ?_⟩
    · simp only [ping, hloop]
      simp
    · simp only [summarize, k1, hlen]
      simp
    · simp only [summarize, k3, hlen, initState]
      simp
    · simp only [summarize, k2, hlen, initState]
      simp
  · intro k hk
    have hklen : (evs.take k).length = k := by
      rw [List.length_take, hlen]
      omega
    obtain ⟨s1, hrun, k1, _, _, _⟩ := pingLoop_prefix (n : Int) [] (evs.take k) initState 0 rfl
      (Or.inr (by rw [hklen]; simp; omega))
      (fun ev hev => hok ev (List.mem_of_mem_take hev))
    have hgo : (n : Int) = 0 ∨ s1.counter < (n : Int) := by
      right
      rw [k1, hklen]
      simp
      omega
    have hloop : pingLoop (n : Int) (evs.take k) initState = none := by
      rw [List.append_nil] at hrun
      rw [hrun]
      exact pingLoop_starved _ s1 hgo
    simp only [ping, hloop]
    simp

theorem ping_count_sequence_witness :
    (∃ sm : Summary,
      ping 0 0 ((5 : Nat) : Int)
        ([okEvent 10000, okEvent 20000, timeoutEvent, okEvent 30000, timeoutEvent] ++ []) false =
        PingResult.summary sm ∧
      sm.counter = ((5 : Nat) : Int) ∧
      sm.seqs = (List.range' 1 5).map (fun k => (k : Int)) ∧
      sm.transmitted = ((5 : Nat) : Int)) ∧
    (∀ k : Nat, k < 5 →
      ping 0 0 ((5 : Nat) : Int)
        ([okEvent 10000, okEvent 20000, timeoutEvent, okEvent 30000, timeoutEvent].take k) false =
        PingResult.unfinished) :=
  ping_count_sequence 5 (by decide)
    [okEvent 10000, okEvent 20000, timeoutEvent, okEvent 30000, timeoutEvent] [] rfl (by decide)

/-- C7, evaluated on the code: in the run with `count = 2` whose two exchanges take
10 and 20 milliseconds the minimum is 10, the mean 15 and the maximum 20, and
the values passed to `rtt min/avg/max/mdev = ...` are, in this order, 10, 20
and 15: the second printed value is the maximum and the third the mean. -/
theorem rtt_line_prints_max_before_avg :
    (ping 0 0 2 [okEvent 10000, okEvent 20000] false).summary?.map
        (fun sm => (sm.mini, sm.average, sm.maxi, sm.rtt_printed)) =
      some (10, 15, 20, [10, 20, 15]) := by
  simp [ping, pingLoop, iteration, sendStep, recvStep, okEvent, initState, summarize,
    PingResult.summary?, packetMillis, MIN, MAX, INT_MAX]
  norm_num

/-- C8.  For every run that prints a summary after recording a non-empty list of
samples, over exact arithmetic: `received` is the number of samples, the mean
is their sum divided by `received`, and the standard deviation is the square
root of the sum of their squares divided by `received` minus the square of
the mean. -/
theorem ping_mean_stddev (ttl tmo count : Int) (evs : List Event) (late : Bool) (sm : Summary)
    (hrun : ping ttl tmo count evs late = PingResult.summary sm) (hne : sm.samples ≠ []) :
    sm.received = (sm.samples.length : Int) ∧
    0 < sm.received ∧
    sm.average = sm.samples.sum / (sm.received : ℚ) ∧
    sm.variance =
      (sm.samples.map (fun x => x * x)).sum / (sm.received : ℚ) - sm.average ^ 2 ∧
    Real.sqrt ((sm.variance : ℚ) : ℝ) =
      Real.sqrt ((((sm.samples.map (fun x => x * x)).sum / (sm.received : ℚ)
        - (sm.samples.sum / (sm.received : ℚ)) ^ 2 : ℚ)) : ℝ) := by
  obtain ⟨r, hloop, hsm⟩ := ping_summary_inv ttl tmo count evs late sm hrun
  obtain ⟨h1, h2, h3, _⟩ := pingLoop_StatsInv count evs r hloop
  subst hsm
  simp only [summarize] at hne ⊢
  have hlen : 0 < r.1.samples.length := List.length_pos.mpr hne
  refine ⟨h1, ?_, ?_, ?_, ?_⟩
  · rw [h1]
    exact_mod_cast hlen
  · rw [h2]
  · rw [h2, h3]
    ring
  · rw [h2, h3]
    congr 2
    ring

theorem ping_mean_stddev_witness :
    summary3.samples ≠ [] ∧ summary3.received = 3 ∧ summary3.average = 20 ∧
    summary3.variance = 1400 / 3 - 400 ∧
    summary3.average = summary3.samples.sum / (summary3.received : ℚ) ∧
    summary3.variance =
      (summary3.samples.map (fun x => x * x)).sum / (summary3.received : ℚ)
        - summary3.average ^ 2 :=
  have h := ping_mean_stddev 0 0 3 [okEvent 10000, okEvent 20000, okEvent 30000] false summary3
    ping_summary3 (by simp [summary3])
  ⟨by simp [summary3], rfl, rfl, by norm_num [summary3], h.2.2.1, h.2.2.2.1⟩

/-- C9.  For every run that prints a summary with `received > 0`, over exact
arithmetic and with `mini` starting at `INT_MAX` and `maxi` at `0`: the
values computed for the summary satisfy `mini <= average <= maxi`, where
`average` is the sum of the samples divided by `received`. -/
theorem ping_min_mean_max (ttl tmo count : Int) (evs : List Event) (late : Bool) (sm : Summary)
    (hrun : ping ttl tmo count evs late = PingResult.summary sm) (hpos : 0 < sm.received) :
    sm.average = sm.samples.sum / (sm.received : ℚ) ∧
    sm.mini ≤ sm.average ∧ sm.average ≤ sm.maxi := by
  obtain ⟨r, hloop, hsm⟩ := ping_summary_inv ttl tmo count evs late sm hrun
  obtain ⟨h1, h2, _, h4⟩ := pingLoop_StatsInv count evs r hloop
  subst hsm
  simp only [summarize] at hpos ⊢
  have hb := sum_bounds r.1.mini r.1.maxi r.1.samples h4
  have hq : (0 : ℚ) < (r.1.received : ℚ) := by exact_mod_cast hpos
  have hcast : (r.1.received : ℚ) = (r.1.samples.length : ℚ) := by
    rw [h1]
    simp
  rw [← hcast, ← h2] at hb
  refine ⟨by rw [h2], ?_, ?_⟩
  · rw [le_div_iff₀ hq]
    exact hb.1
  · rw [div_le_iff₀ hq]
    exact hb.2

theorem ping_min_mean_max_witness :
    0 < summary3.received ∧
    summary3.average = summary3.samples.sum / (summary3.received : ℚ) ∧
    summary3.mini ≤ summary3.average ∧ summary3.average ≤ summary3.maxi :=
  ⟨by decide,
    ping_min_mean_max 0 0 3 [okEvent 10000, okEvent 20000, okEvent 30000] false summary3
      ping_summary3 (by decide)⟩

end Ping
